import Mathlib

/-!
Shallow embedding of the hybrid retrieval and reranking pipeline of hi-rag
(src/api/services/searchService.ts, src/api/services/similarityService.ts,
src/api/services/embeddingService.ts).

JS numbers are modelled as rationals; `Math.sqrt` forces the cosine
similarity into the reals.  Text is modelled as a list of characters,
result-count limits as natural numbers, and the external stores and
services as explicit parameters holding their settled outcomes.
-/

namespace HiRag

abbrev Text := List Char

/-- JS `String.prototype.toLowerCase`, modelled per character. -/
def lowerText (t : Text) : Text := t.map Char.toLower

/-- JS `content.toLowerCase().includes(term.toLowerCase())`:
case-insensitive substring containment. -/
def containsCI (content term : Text) : Bool :=
  decide (lowerText term <:+: lowerText content)

/-- JS regex character class `\w` (no unicode flag): `[A-Za-z0-9_]`. -/
def isWordChar (c : Char) : Bool :=
  ('a' ≤ c && c ≤ 'z') || ('A' ≤ c && c ≤ 'Z') || ('0' ≤ c && c ≤ '9') || c == '_'

/-- JS regex character class `\s` (the whitespace characters relevant here). -/
def isSpaceChar (c : Char) : Bool :=
  c == ' ' || c == '\t' || c == '\n' || c == '\r' || c == '\x0b' || c == '\x0c'

/-- JS `.replace(/[^\w\s]/g, '')`: delete every character that is neither a
word character nor whitespace. -/
def stripPunct (t : Text) : Text := t.filter (fun c => isWordChar c || isSpaceChar c)

/-- Accumulator loop splitting a text into its maximal runs of non-space
characters (`cur` holds the current run, reversed). -/
def splitWordsAux (cur : Text) : Text → List Text
  | [] => if cur.isEmpty then [] else [cur.reverse]
  | c :: rest =>
    if isSpaceChar c then
      if cur.isEmpty then splitWordsAux [] rest
      else cur.reverse :: splitWordsAux [] rest
    else splitWordsAux (c :: cur) rest

/-- JS `.split(/\s+/)`: the empty fragments a leading separator would produce
are dropped here already; the source drops them in the `length > 1` filter. -/
def splitWords (t : Text) : List Text := splitWordsAux [] t

/-- The word set built inside `calculateJaccardSimilarity`: lowercase, strip
punctuation, split on whitespace, keep words of length > 1, JS `Set`
semantics (first occurrence kept, insertion order). -/
def wordSet (t : Text) : List Text :=
  ((splitWords (stripPunct (lowerText t))).filter (fun w => 1 < w.length)).dedup

/-- Translation of `calculateJaccardSimilarity` (similarityService.ts):
word-overlap Jaccard similarity of two texts. -/
def calculateJaccardSimilarity (textA textB : Text) : ℚ :=
  let wordsA := wordSet textA
  let wordsB := wordSet textB
  let intersection := wordsA.filter (fun w => wordsB.contains w)
  let union := (wordsA ++ wordsB).dedup
  if union.length = 0 then 0 else (intersection.length : ℚ) / (union.length : ℚ)

/-- The dot product accumulated by the loop in `calculateCosineSimilarity`
(the loop only runs when the lengths agree, so zipping is exact). -/
def dotProduct (a b : List ℚ) : ℚ := ((a.zip b).map (fun p => p.1 * p.2)).sum

/-- The squared norm accumulated by the loop in `calculateCosineSimilarity`. -/
def sumSquares (a : List ℚ) : ℚ := (a.map (fun x => x * x)).sum

/-- Translation of `calculateCosineSimilarity` (similarityService.ts):
guarded cosine of two vectors; `Math.sqrt` is modelled by `Real.sqrt`. -/
noncomputable def calculateCosineSimilarity (vecA vecB : List ℚ) : ℝ :=
  if vecA.length ≠ vecB.length then 0
  else if sumSquares vecA = 0 ∨ sumSquares vecB = 0 then 0
  else ((dotProduct vecA vecB : ℚ) : ℝ) /
    (Real.sqrt ((sumSquares vecA : ℚ) : ℝ) * Real.sqrt ((sumSquares vecB : ℚ) : ℝ))

lemma sumSquares_nonneg (a : List ℚ) : 0 ≤ sumSquares a := by
  unfold sumSquares
  apply List.sum_nonneg
  intro x hx
  rcases List.mem_map.1 hx with ⟨y, _, rfl⟩
  exact mul_self_nonneg y

/-- C10: `calculateCosineSimilarity` is total and guarded: it returns 0 when
the vectors have different lengths or when either vector has zero (squared)
norm, and otherwise returns the cosine `dot / (‖A‖ * ‖B‖)` of the two
vectors, whose denominator is provably non-zero (no division by zero). -/
theorem calculateCosineSimilarity_total_guarded (vecA vecB : List ℚ) :
    (vecA.length ≠ vecB.length → calculateCosineSimilarity vecA vecB = 0) ∧
    (sumSquares vecA = 0 ∨ sumSquares vecB = 0 → calculateCosineSimilarity vecA vecB = 0) ∧
    (sumSquares vecA ≠ 0 → sumSquares vecB ≠ 0 →
      Real.sqrt ((sumSquares vecA : ℚ) : ℝ) * Real.sqrt ((sumSquares vecB : ℚ) : ℝ) ≠ 0 ∧
      (vecA.length = vecB.length →
        calculateCosineSimilarity vecA vecB =
          ((dotProduct vecA vecB : ℚ) : ℝ) /
          (Real.sqrt ((sumSquares vecA : ℚ) : ℝ) * Real.sqrt ((sumSquares vecB : ℚ) : ℝ)))) := by
  refine ⟨?_, ?_, ?_⟩
  · intro h
    simp [calculateCosineSimilarity, h]
  · intro h
    by_cases hlen : vecA.length ≠ vecB.length
    · simp [calculateCosineSimilarity, hlen]
    · simp [calculateCosineSimilarity, hlen, h]
  · intro hA hB
    have hApos : (0 : ℚ) < sumSquares vecA := lt_of_le_of_ne (sumSquares_nonneg vecA) (Ne.symm hA)
    have hBpos : (0 : ℚ) < sumSquares vecB := lt_of_le_of_ne (sumSquares_nonneg vecB) (Ne.symm hB)
    have hAr : (0 : ℝ) < Real.sqrt ((sumSquares vecA : ℚ) : ℝ) := by
      rw [Real.sqrt_pos]; exact_mod_cast hApos
    have hBr : (0 : ℝ) < Real.sqrt ((sumSquares vecB : ℚ) : ℝ) := by
      rw [Real.sqrt_pos]; exact_mod_cast hBpos
    refine ⟨ne_of_gt (mul_pos hAr hBr), ?_⟩
    intro hlen
    simp [calculateCosineSimilarity, hlen, hA, hB]

/-- Witness for C10 at concrete inputs: a length mismatch and a pair of
zero-norm vectors both return 0. -/
theorem calculateCosineSimilarity_total_guarded_witness :
    calculateCosineSimilarity [1, 0] [1, 2, 3] = 0 ∧
    calculateCosineSimilarity [0, 0] [0, 0] = 0 := by
  constructor
  · exact (calculateCosineSimilarity_total_guarded [1, 0] [1, 2, 3]).1 (by decide)
  · exact (calculateCosineSimilarity_total_guarded [0, 0] [0, 0]).2.1
      (Or.inl (by norm_num [sumSquares]))

/-! ## Passages (document chunks)

The JS code passes untyped objects; the fields the pipeline reads are
`id`, `content`, `similarity` (vector channel score, possibly absent),
`keyword_score` (lexical channel score, possibly absent), `embedding`
(possibly absent) and `created_at`.  `x || 0` on a possibly-absent number
is modelled by `Option.getD 0`. -/

structure Chunk where
  id : String
  content : Text
  similarity : Option ℚ
  keyword_score : Option ℚ
  embedding : Option (List ℚ)
  created_at : Int
  deriving DecidableEq, Repr

instance : Inhabited Chunk := ⟨⟨"", [], none, none, none, 0⟩⟩

/-- JS `chunk.similarity || 0`. -/
def simOr0 (c : Chunk) : ℚ := c.similarity.getD 0

/-- The first loop of `diversityRerank`: scan scores left to right, keeping
the index of the strictly best score seen so far (`bestScore` starts at -1,
`bestIndex` at 0). -/
def scanBest : List ℚ → ℕ → ℕ → ℚ → ℕ × ℚ
  | [], _, bi, bs => (bi, bs)
  | s :: rest, i, bi, bs =>
    if bs < s then scanBest rest (i + 1) i s
    else scanBest rest (i + 1) bi bs

/-- Index of the seed chunk chosen by `diversityRerank`. -/
def seedIdx (chunks : List Chunk) : ℕ :=
  (scanBest (chunks.map simOr0) 0 0 (-1)).1

/-- The combined similarity of a candidate against one selected chunk:
`Math.max(textSimilarity, vectorSimilarity * 0.8)`, where the vector part
is present only when both chunks carry an embedding. -/
noncomputable def mmrCombinedSim (candidate selected : Chunk) : ℝ :=
  let textSim : ℝ := (calculateJaccardSimilarity candidate.content selected.content : ℚ)
  let vecSim : ℝ :=
    match candidate.embedding, selected.embedding with
    | some ce, some se => calculateCosineSimilarity ce se
    | _, _ => 0
  max textSim (vecSim * (8 / 10 : ℝ))

/-- `maxSimilarity`: the redundancy penalty of a candidate, a running
maximum (starting at 0) over the already selected chunks. -/
noncomputable def mmrPenalty (candidate : Chunk) (selected : List Chunk) : ℝ :=
  selected.foldl (fun m s => max m (mmrCombinedSim candidate s)) 0

/-- `mmrScore = lambda * relevanceScore - (1 - lambda) * maxSimilarity`. -/
noncomputable def mmrScore (lam : ℚ) (selected : List Chunk) (c : Chunk) : ℝ :=
  (lam : ℝ) * ((simOr0 c : ℚ) : ℝ) - ((1 - lam : ℚ) : ℝ) * mmrPenalty c selected

/-- The inner loop of the MMR selection: scan the remaining chunks, keeping
the index of the strictly best MMR score (`bestMMRScore` starts at -1,
`bestMMRIndex` at -1, modelled as `none`). -/
noncomputable def scanBestMMR (lam : ℚ) (selected : List Chunk) :
    List Chunk → ℕ → Option ℕ → ℝ → Option ℕ
  | [], _, bi, _ => bi
  | c :: rest, i, bi, bs =>
    if bs < mmrScore lam selected c then
      scanBestMMR lam selected rest (i + 1) (some i) (mmrScore lam selected c)
    else scanBestMMR lam selected rest (i + 1) bi bs

/-- The `while (selectedChunks.length < maxResults && remainingChunks.length
> 0)` loop of `diversityRerank`: repeatedly move the best-MMR chunk from
`remaining` to the end of `selected`; stop when no index qualifies. -/
noncomputable def mmrLoop (lam : ℚ) (maxResults : ℕ) :
    List Chunk → List Chunk → List Chunk
  | selected, remaining =>
    if _h : selected.length < maxResults ∧ remaining ≠ [] then
      if hio : (scanBestMMR lam selected remaining 0 none (-1)).isSome then
        if hi : (scanBestMMR lam selected remaining 0 none (-1)).get hio < remaining.length then
          mmrLoop lam maxResults
            (selected ++ [remaining.get ⟨(scanBestMMR lam selected remaining 0 none (-1)).get hio, hi⟩])
            (remaining.eraseIdx ((scanBestMMR lam selected remaining 0 none (-1)).get hio))
        else selected
      else selected
    else selected
  termination_by _ remaining => remaining.length
  decreasing_by
    have := List.length_eraseIdx_of_lt hi
    omega

/-- The final deduplication pass of `diversityRerank`: walk the selected
chunks in order and keep a chunk only when its Jaccard similarity with
every already-kept chunk is at most the content threshold 0.8. -/
def dedupLoop : List Chunk → List Chunk → List Chunk
  | [], kept => kept
  | c :: rest, kept =>
    if kept.any (fun e => decide ((8 / 10 : ℚ) < calculateJaccardSimilarity c.content e.content)) then
      dedupLoop rest kept
    else dedupLoop rest (kept ++ [c])

/-- Translation of `diversityRerank` (similarityService.ts): MMR-based
diversity reranking with a trailing near-duplicate removal pass. -/
noncomputable def diversityRerank (chunks : List Chunk) (queryEmbedding : List ℚ)
    (lam : ℚ) (maxResults : ℕ) : List Chunk :=
  if chunks.isEmpty then []
  else if chunks.length ≤ maxResults then chunks
  else
    let i := seedIdx chunks
    let seed := chunks.getD i default
    dedupLoop (mmrLoop lam maxResults [seed] (chunks.eraseIdx i)) []

/-! ## Jaccard similarity is symmetric -/

lemma wordSet_nodup (t : Text) : (wordSet t).Nodup := List.nodup_dedup _

lemma length_filter_contains (A B : List Text) (hA : A.Nodup) :
    (A.filter (fun w => B.contains w)).length = (A.toFinset ∩ B.toFinset).card := by
  classical
  rw [← List.toFinset_card_of_nodup (hA.filter _)]
  congr 1
  ext w
  simp [List.mem_toFinset, List.mem_filter, List.contains, List.elem_iff]

lemma length_dedup_append (A B : List Text) :
    ((A ++ B).dedup).length = (A.toFinset ∪ B.toFinset).card := by
  classical
  rw [← List.toFinset_append, List.card_toFinset]

lemma calculateJaccardSimilarity_comm (a b : Text) :
    calculateJaccardSimilarity a b = calculateJaccardSimilarity b a := by
  simp only [calculateJaccardSimilarity]
  rw [length_filter_contains _ _ (wordSet_nodup a), length_filter_contains _ _ (wordSet_nodup b),
    length_dedup_append, length_dedup_append, Finset.inter_comm, Finset.union_comm]

/-! ## The deduplication pass keeps only pairwise low-overlap chunks -/

lemma dedupLoop_pairwise (l : List Chunk) (kept : List Chunk)
    (hk : kept.Pairwise (fun a b => calculateJaccardSimilarity a.content b.content ≤ 8 / 10)) :
    (dedupLoop l kept).Pairwise
      (fun a b => calculateJaccardSimilarity a.content b.content ≤ 8 / 10) := by
  induction l generalizing kept with
  | nil => simpa [dedupLoop] using hk
  | cons c rest ih =>
    rw [dedupLoop]
    by_cases h : kept.any
        (fun e => decide ((8 / 10 : ℚ) < calculateJaccardSimilarity c.content e.content)) = true
    · rw [if_pos h]
      exact ih kept hk
    · rw [if_neg h]
      apply ih
      rw [List.pairwise_append]
      refine ⟨hk, List.pairwise_singleton _ _, ?_⟩
      intro x hx y hy
      have hfalse : kept.any
          (fun e => decide ((8 / 10 : ℚ) < calculateJaccardSimilarity c.content e.content)) = false := by
        simpa using h
      have hxkept := List.any_eq_false.mp hfalse x hx
      simp only [List.mem_singleton] at hy
      subst hy
      rw [calculateJaccardSimilarity_comm]
      exact le_of_not_lt (by simpa using hxkept)

lemma dedupLoop_length_le (l kept : List Chunk) :
    (dedupLoop l kept).length ≤ kept.length + l.length := by
  induction l generalizing kept with
  | nil => simp [dedupLoop]
  | cons c rest ih =>
    rw [dedupLoop]
    by_cases h : kept.any
        (fun e => decide ((8 / 10 : ℚ) < calculateJaccardSimilarity c.content e.content)) = true
    · rw [if_pos h]
      have := ih kept
      simpa using Nat.le_succ_of_le this
    · rw [if_neg h]
      have := ih (kept ++ [c])
      simp only [List.length_append, List.length_singleton] at this
      simpa [Nat.add_assoc, Nat.add_comm 1 rest.length] using this

/-! ## MMR loop length bounds -/

lemma mmrLoop_length_le_max (lam : ℚ) (M : ℕ) (selected remaining : List Chunk)
    (h : selected.length ≤ M) : (mmrLoop lam M selected remaining).length ≤ M := by
  induction selected, remaining using mmrLoop.induct lam M with
  | case1 selected remaining hcond hio hi ih =>
    rw [mmrLoop, dif_pos hcond, dif_pos hio, dif_pos hi]
    exact ih (by simpa using Nat.succ_le_of_lt hcond.1)
  | case2 selected remaining hcond hio hi =>
    rw [mmrLoop, dif_pos hcond, dif_pos hio, dif_neg hi]
    exact h
  | case3 selected remaining hcond hio =>
    rw [mmrLoop, dif_pos hcond, dif_neg hio]
    exact h
  | case4 selected remaining hcond =>
    rw [mmrLoop, dif_neg hcond]
    exact h

lemma mmrLoop_length_le_sum (lam : ℚ) (M : ℕ) (selected remaining : List Chunk) :
    (mmrLoop lam M selected remaining).length ≤ selected.length + remaining.length := by
  induction selected, remaining using mmrLoop.induct lam M with
  | case1 selected remaining hcond hio hi ih =>
    rw [mmrLoop, dif_pos hcond, dif_pos hio, dif_pos hi]
    have herase := List.length_eraseIdx_of_lt hi
    simp only [List.length_append, List.length_singleton] at ih ⊢
    omega
  | case2 selected remaining hcond hio hi =>
    rw [mmrLoop, dif_pos hcond, dif_pos hio, dif_neg hi]
    omega
  | case3 selected remaining hcond hio =>
    rw [mmrLoop, dif_pos hcond, dif_neg hio]
    omega
  | case4 selected remaining hcond =>
    rw [mmrLoop, dif_neg hcond]
    omega

/-! ## The seed index is in range -/

lemma scanBest_fst_lt (l : List ℚ) : ∀ (i bi : ℕ) (bs : ℚ) (n : ℕ),
    bi < n → i + l.length ≤ n → (scanBest l i bi bs).1 < n := by
  induction l with
  | nil => intro i bi bs n hbi _; simpa [scanBest] using hbi
  | cons s rest ih =>
    intro i bi bs n hbi hlen
    rw [scanBest]
    by_cases h : bs < s
    · rw [if_pos h]
      exact ih (i + 1) i s n (by simp at hlen; omega) (by simp at hlen; omega)
    · rw [if_neg h]
      exact ih (i + 1) bi bs n hbi (by simp at hlen; omega)

lemma seedIdx_lt (chunks : List Chunk) (h : chunks ≠ []) : seedIdx chunks < chunks.length := by
  have hlen : 0 < chunks.length := List.length_pos.mpr h
  exact scanBest_fst_lt (chunks.map simOr0) 0 0 (-1) chunks.length hlen (by simp)

/-- C2 (amended): whenever the candidate list is strictly larger than the
target size M — so the MMR selection and the trailing deduplication pass
actually run — the output of `diversityRerank` contains no two passages
whose pairwise Jaccard text-overlap exceeds 0.8.  (The claim as stated is
refuted by the `length ≤ M` shortcut, which returns the input unchanged
without deduplication.) -/
theorem diversityRerank_no_duplicates (chunks : List Chunk) (qe : List ℚ) (lam : ℚ) (M : ℕ)
    (h : M < chunks.length) :
    (diversityRerank chunks qe lam M).Pairwise
      (fun a b => calculateJaccardSimilarity a.content b.content ≤ 8 / 10) := by
  have hne : ¬ chunks.isEmpty = true := by
    cases chunks with
    | nil => simp at h
    | cons a l => simp
  have hlen : ¬ chunks.length ≤ M := by omega
  rw [diversityRerank, if_neg hne, if_neg hlen]
  exact dedupLoop_pairwise _ _ (by simp)

/-- A candidate passage used in concrete instantiations. -/
def dupChunk : Chunk := ⟨"dup", ['a', 'b'], some 1, none, none, 0⟩

/-- Counterexample to C2 as stated: two identical passages with candidate
count not exceeding M are returned unchanged, and their pairwise Jaccard
overlap is 1 > 0.8. -/
theorem diversityRerank_no_duplicates_counterexample :
    diversityRerank [dupChunk, dupChunk] [] (7 / 10) 5 = [dupChunk, dupChunk] ∧
    (8 / 10 : ℚ) < calculateJaccardSimilarity dupChunk.content dupChunk.content := by
  constructor
  · rw [diversityRerank, if_neg (by simp), if_pos (by simp)]
  · have h1 : wordSet dupChunk.content = [['a', 'b']] := by decide
    rw [calculateJaccardSimilarity]
    simp only [h1]
    norm_num [List.contains, List.dedup]

/-- Candidate passages used in concrete instantiations. -/
def chunkA : Chunk := ⟨"a", ['a', 'b'], some (9 / 10), none, none, 0⟩

def chunkB : Chunk := ⟨"b", ['c', 'd'], some (1 / 2), none, none, 0⟩

/-- Witness for C2 at a concrete input whose candidate count 2 exceeds
M = 1. -/
theorem diversityRerank_no_duplicates_witness :
    (diversityRerank [chunkA, chunkB] [] (7 / 10) 1).Pairwise
      (fun a b => calculateJaccardSimilarity a.content b.content ≤ 8 / 10) :=
  diversityRerank_no_duplicates [chunkA, chunkB] [] (7 / 10) 1 (by norm_num)

/-- C5 (amended): for every target size M ≥ 1 the output of
`diversityRerank` has length at most M; for every input the output is never
longer than the input; an input of length at most M is returned unchanged;
hence reranking such a list again returns it unchanged (idempotence).
(The claim as stated quantifies over every M; it fails at M = 0, where the
seed chunk is still selected unconditionally.) -/
theorem diversityRerank_size_identity (chunks : List Chunk) (qe : List ℚ) (lam : ℚ) (M : ℕ) :
    (1 ≤ M → (diversityRerank chunks qe lam M).length ≤ M) ∧
    (diversityRerank chunks qe lam M).length ≤ chunks.length ∧
    (chunks.length ≤ M → diversityRerank chunks qe lam M = chunks) ∧
    (chunks.length ≤ M →
      diversityRerank (diversityRerank chunks qe lam M) qe lam M =
        diversityRerank chunks qe lam M) := by
  by_cases hemp : chunks.isEmpty = true
  · have hnil : chunks = [] := by
      cases chunks with
      | nil => rfl
      | cons a l => simp at hemp
    subst hnil
    simp [diversityRerank]
  · by_cases hle : chunks.length ≤ M
    · have hid : diversityRerank chunks qe lam M = chunks := by
        rw [diversityRerank, if_neg hemp, if_pos hle]
      refine ⟨fun _ => ?_, ?_, fun _ => hid, fun _ => ?_⟩
      · rw [hid]; exact hle
      · rw [hid]
      · rw [hid]; exact hid
    · have hchunks_ne : chunks ≠ [] := by
        cases chunks with
        | nil => simp at hemp
        | cons a l => simp
      have hseed := seedIdx_lt chunks hchunks_ne
      have hbody : diversityRerank chunks qe lam M =
          dedupLoop (mmrLoop lam M [chunks.getD (seedIdx chunks) default]
            (chunks.eraseIdx (seedIdx chunks))) [] := by
        rw [diversityRerank, if_neg hemp, if_neg hle]
      refine ⟨fun hM => ?_, ?_, fun hc => absurd hc hle, fun hc => absurd hc hle⟩
      · rw [hbody]
        have h1 : (mmrLoop lam M [chunks.getD (seedIdx chunks) default]
            (chunks.eraseIdx (seedIdx chunks))).length ≤ M :=
          mmrLoop_length_le_max lam M _ _ (by simpa using hM)
        have h2 := dedupLoop_length_le
          (mmrLoop lam M [chunks.getD (seedIdx chunks) default]
            (chunks.eraseIdx (seedIdx chunks))) []
        simp only [List.length_nil, Nat.zero_add] at h2
        omega
      · rw [hbody]
        have h1 := mmrLoop_length_le_sum lam M
          [chunks.getD (seedIdx chunks) default] (chunks.eraseIdx (seedIdx chunks))
        have herase := List.length_eraseIdx_of_lt hseed
        have h2 := dedupLoop_length_le
          (mmrLoop lam M [chunks.getD (seedIdx chunks) default]
            (chunks.eraseIdx (seedIdx chunks))) []
        simp only [List.length_nil, Nat.zero_add, List.length_singleton] at h1 h2
        omega

/-- A candidate passage with relevance 1 used by the C5 counterexample. -/
def soloChunk : Chunk := ⟨"solo", ['a', 'b'], some 1, none, none, 0⟩

lemma seedIdx_solo : seedIdx [soloChunk] = 0 := by
  rw [seedIdx]
  simp only [List.map, scanBest]
  split <;> rfl

lemma diversityRerank_solo : diversityRerank [soloChunk] [] (7 / 10) 0 = [soloChunk] := by
  rw [diversityRerank, if_neg (by simp), if_neg (by simp)]
  simp only [seedIdx_solo, List.getD, List.eraseIdx]
  rw [mmrLoop, dif_neg (by simp)]
  simp [dedupLoop]

/-- Counterexample to C5 as stated: with target size M = 0 and one
candidate, the seed is still selected unconditionally, so the output has
length 1 > M. -/
theorem diversityRerank_size_counterexample :
    ¬ (diversityRerank [soloChunk] [] (7 / 10) 0).length ≤ 0 := by
  rw [diversityRerank_solo]
  simp

/-- Witness for C5 at concrete inputs: the length bound at M = 1 on a
two-chunk input, and the identity and idempotence cases at M = 5. -/
theorem diversityRerank_size_identity_witness :
    (diversityRerank [chunkA, chunkB] [] (7 / 10) 1).length ≤ 1 ∧
    diversityRerank [chunkA, chunkB] [] (7 / 10) 5 = [chunkA, chunkB] ∧
    diversityRerank (diversityRerank [chunkA, chunkB] [] (7 / 10) 5) [] (7 / 10) 5 =
      diversityRerank [chunkA, chunkB] [] (7 / 10) 5 :=
  ⟨(diversityRerank_size_identity [chunkA, chunkB] [] (7 / 10) 1).1 (by norm_num),
   (diversityRerank_size_identity [chunkA, chunkB] [] (7 / 10) 5).2.2.1 (by norm_num),
   (diversityRerank_size_identity [chunkA, chunkB] [] (7 / 10) 5).2.2.2 (by norm_num)⟩

/-! ## Result fusion (`fuseSearchResults`, searchService.ts)

The JS builds a `Map` keyed by passage id (insertion order preserved,
modelled as a list of entries with pairwise distinct ids), then maps a
scoring pass over the values, sorts with a comparator and truncates. -/

structure FusedChunk where
  id : String
  content : Text
  created_at : Int
  embedding : Option (List ℚ)
  vector_score : ℚ
  keyword_score : ℚ
  hybrid_score : ℚ
  keyword_match_ratio : ℚ
  normalized_vector_score : ℚ
  normalized_keyword_score : ℚ
  deriving DecidableEq, Repr

/-- JS `chunk.keyword_score || 0`. -/
def kwOr0 (c : Chunk) : ℚ := c.keyword_score.getD 0

/-- The entry stored for a vector-channel chunk: spread plus
`vector_score: similarity || 0, keyword_score: 0, hybrid_score: 0`. -/
def baseOfVector (c : Chunk) : FusedChunk :=
  { id := c.id, content := c.content, created_at := c.created_at, embedding := c.embedding,
    vector_score := simOr0 c, keyword_score := 0, hybrid_score := 0,
    keyword_match_ratio := 0, normalized_vector_score := 0, normalized_keyword_score := 0 }

/-- The entry stored for a keyword-channel chunk not already in the map. -/
def baseOfKeyword (c : Chunk) : FusedChunk :=
  { id := c.id, content := c.content, created_at := c.created_at, embedding := c.embedding,
    vector_score := 0, keyword_score := kwOr0 c, hybrid_score := 0,
    keyword_match_ratio := 0, normalized_vector_score := 0, normalized_keyword_score := 0 }

/-- `vectorChunks.forEach`: insert a vector chunk unless its id is present. -/
def addVector (m : List FusedChunk) (c : Chunk) : List FusedChunk :=
  if m.any (fun e => e.id == c.id) then m else m ++ [baseOfVector c]

/-- `keywordChunks.forEach`: update the keyword score of an existing entry
with the same id, else insert a new keyword-only entry. -/
def addKeyword (m : List FusedChunk) (c : Chunk) : List FusedChunk :=
  if m.any (fun e => e.id == c.id) then
    m.map (fun e => if e.id == c.id then { e with keyword_score := kwOr0 c } else e)
  else m ++ [baseOfKeyword c]

/-- The values of the JS `resultMap`, in insertion order. -/
def resultEntries (vectorChunks keywordChunks : List Chunk) : List FusedChunk :=
  keywordChunks.foldl addKeyword (vectorChunks.foldl addVector [])

/-- `.filter(score => score > 0)`. -/
def posScores (l : List ℚ) : List ℚ := l.filter (fun s => decide (0 < s))

/-- JS `scores.length > 0 ? Math.max(...scores) : dflt`. -/
def maxScoreOr (l : List ℚ) (dflt : ℚ) : ℚ :=
  match l with
  | [] => dflt
  | x :: xs => xs.foldl max x

/-- JS `scores.length > 0 ? Math.min(...scores) : dflt`. -/
def minScoreOr (l : List ℚ) (dflt : ℚ) : ℚ :=
  match l with
  | [] => dflt
  | x :: xs => xs.foldl min x

def vectorScores (vectorChunks : List Chunk) : List ℚ := posScores (vectorChunks.map simOr0)

def maxVectorScore (vectorChunks : List Chunk) : ℚ := maxScoreOr (vectorScores vectorChunks) 1

def minVectorScore (vectorChunks : List Chunk) : ℚ := minScoreOr (vectorScores vectorChunks) 0

def keywordScores (keywordChunks : List Chunk) : List ℚ := posScores (keywordChunks.map kwOr0)

def maxKeywordScore (keywordChunks : List Chunk) : ℚ := maxScoreOr (keywordScores keywordChunks) 1

def minKeywordScore (keywordChunks : List Chunk) : ℚ := minScoreOr (keywordScores keywordChunks) 0

/-- The improved normalization of the vector score: min-max over the
positive scores when the range is proper, else pass the raw score through. -/
def normVec (minV maxV vs : ℚ) : ℚ :=
  if 0 < vs ∧ minV < maxV then (vs - minV) / (maxV - minV)
  else if 0 < vs then vs
  else 0

/-- The normalization of the keyword score: min-max when the range is
proper, else divide by the fixed cap 5 and clamp to 1. -/
def normKw (minK maxK ks : ℚ) : ℚ :=
  if 0 < ks ∧ minK < maxK then (ks - minK) / (maxK - minK)
  else if 0 < ks then min (ks / 5) 1
  else 0

/-- Fraction of the supplied terms whose lowercase form occurs in the
passage text (0 when no terms were supplied). -/
def keywordMatchRatio (keywords : List Text) (content : Text) : ℚ :=
  if keywords.length = 0 then 0
  else ((keywords.filter (fun k => containsCI content k)).length : ℚ) / (keywords.length : ℚ)

/-- The fused score of one entry: dynamically weighted sum of the
normalized channel scores plus the cross-channel and match-ratio bonuses,
clamped to 1. -/
def hybridVal (minV maxV minK maxK : ℚ) (keywords : List Text)
    (vs ks : ℚ) (content : Text) : ℚ :=
  let nv := normVec minV maxV vs
  let nk := normKw minK maxK ks
  let kmr := keywordMatchRatio keywords content
  let vw : ℚ := if 8 / 10 < kmr then 1 / 2 else 6 / 10
  let kw : ℚ := if 8 / 10 < kmr then 1 / 2 else 4 / 10
  let hybrid := nv * vw + nk * kw
  let bonus : ℚ :=
    (if 0 < vs ∧ 0 < ks then 1 / 10 else 0) + (if 1 / 2 < kmr then kmr * (1 / 10) else 0)
  min (hybrid + bonus) 1

/-- The `.map` pass of `fuseSearchResults`: attach the hybrid score, the
match ratio and the two normalized scores to an entry. -/
def scoreEntry (minV maxV minK maxK : ℚ) (keywords : List Text) (e : FusedChunk) : FusedChunk :=
  { e with
    hybrid_score := hybridVal minV maxV minK maxK keywords e.vector_score e.keyword_score e.content,
    keyword_match_ratio := keywordMatchRatio keywords e.content,
    normalized_vector_score := normVec minV maxV e.vector_score,
    normalized_keyword_score := normKw minK maxK e.keyword_score }

/-- The sort comparator of `fuseSearchResults` as a boolean "a may come
before b": hybrid score descending, with match ratio descending as the
tie-break whenever the hybrid scores are within 0.01 of each other. -/
def fuseLe (a b : FusedChunk) : Bool :=
  if 1 / 100 < |a.hybrid_score - b.hybrid_score| then decide (b.hybrid_score ≤ a.hybrid_score)
  else decide (b.keyword_match_ratio ≤ a.keyword_match_ratio)

/-- The scored (not yet sorted or truncated) fused entries. -/
def scoredEntries (vectorChunks keywordChunks : List Chunk) (keywords : List Text) :
    List FusedChunk :=
  (resultEntries vectorChunks keywordChunks).map
    (scoreEntry (minVectorScore vectorChunks) (maxVectorScore vectorChunks)
      (minKeywordScore keywordChunks) (maxKeywordScore keywordChunks) keywords)

/-- Translation of `fuseSearchResults` (searchService.ts). -/
def fuseSearchResults (vectorChunks keywordChunks : List Chunk) (keywords : List Text)
    (limit : ℕ) : List FusedChunk :=
  ((scoredEntries vectorChunks keywordChunks keywords).mergeSort fuseLe).take limit

/-! ## C9: fused lists keep ids unique and respect the limit -/

lemma addVector_ids_nodup (m : List FusedChunk) (c : Chunk)
    (h : (m.map FusedChunk.id).Nodup) : ((addVector m c).map FusedChunk.id).Nodup := by
  rw [addVector]
  by_cases hany : m.any (fun e => e.id == c.id) = true
  · rw [if_pos hany]; exact h
  · rw [if_neg hany]
    have hni : ∀ e ∈ m, ¬ e.id = c.id := by simpa using hany
    simp only [List.map_append, List.map_cons, List.map_nil, List.nodup_append,
      List.nodup_cons, List.not_mem_nil, not_false_iff, List.nodup_nil, true_and, and_true]
    refine ⟨h, ?_⟩
    intro a ha hb
    rcases List.mem_map.mp ha with ⟨e, he, rfl⟩
    simp only [List.mem_singleton] at hb
    exact hni e he (by simpa [baseOfVector] using hb)

lemma addKeyword_ids_nodup (m : List FusedChunk) (c : Chunk)
    (h : (m.map FusedChunk.id).Nodup) : ((addKeyword m c).map FusedChunk.id).Nodup := by
  rw [addKeyword]
  by_cases hany : m.any (fun e => e.id == c.id) = true
  · rw [if_pos hany]
    have hids : (m.map (fun e => if e.id == c.id then { e with keyword_score := kwOr0 c } else e)).map
        FusedChunk.id = m.map FusedChunk.id := by
      rw [List.map_map]
      apply List.map_congr_left
      intro e _
      by_cases hid : e.id = c.id
      · simp [hid]
      · simp [hid]
    rw [hids]
    exact h
  · rw [if_neg hany]
    have hni : ∀ e ∈ m, ¬ e.id = c.id := by simpa using hany
    simp only [List.map_append, List.map_cons, List.map_nil, List.nodup_append,
      List.nodup_cons, List.not_mem_nil, not_false_iff, List.nodup_nil, true_and, and_true]
    refine ⟨h, ?_⟩
    intro a ha hb
    rcases List.mem_map.mp ha with ⟨e, he, rfl⟩
    simp only [List.mem_singleton] at hb
    exact hni e he (by simpa [baseOfKeyword] using hb)

lemma foldl_addVector_ids_nodup (l : List Chunk) (m : List FusedChunk)
    (h : (m.map FusedChunk.id).Nodup) : ((l.foldl addVector m).map FusedChunk.id).Nodup := by
  induction l generalizing m with
  | nil => exact h
  | cons c rest ih => exact ih (addVector m c) (addVector_ids_nodup m c h)

lemma foldl_addKeyword_ids_nodup (l : List Chunk) (m : List FusedChunk)
    (h : (m.map FusedChunk.id).Nodup) : ((l.foldl addKeyword m).map FusedChunk.id).Nodup := by
  induction l generalizing m with
  | nil => exact h
  | cons c rest ih => exact ih (addKeyword m c) (addKeyword_ids_nodup m c h)

lemma resultEntries_ids_nodup (vc kc : List Chunk) :
    ((resultEntries vc kc).map FusedChunk.id).Nodup :=
  foldl_addKeyword_ids_nodup kc _ (foldl_addVector_ids_nodup vc [] (by simp))

lemma scoredEntries_ids (vc kc : List Chunk) (keywords : List Text) :
    (scoredEntries vc kc keywords).map FusedChunk.id =
      (resultEntries vc kc).map FusedChunk.id := by
  rw [scoredEntries, List.map_map]
  rfl

/-- C9: for every pair of channel lists, term list and limit, the list
returned by `fuseSearchResults` mentions each passage id at most once and
has length at most the requested limit. -/
theorem fuseSearchResults_unique_ids_limit (vectorChunks keywordChunks : List Chunk)
    (keywords : List Text) (limit : ℕ) :
    ((fuseSearchResults vectorChunks keywordChunks keywords limit).map FusedChunk.id).Nodup ∧
    (fuseSearchResults vectorChunks keywordChunks keywords limit).length ≤ limit := by
  constructor
  · have hsorted : ((List.mergeSort (scoredEntries vectorChunks keywordChunks keywords)
        fuseLe).map FusedChunk.id).Nodup := by
      have hperm := (List.mergeSort_perm (scoredEntries vectorChunks keywordChunks keywords)
        fuseLe).map FusedChunk.id
      rw [hperm.nodup_iff, scoredEntries_ids]
      exact resultEntries_ids_nodup vectorChunks keywordChunks
    have hsub : List.Sublist
        ((fuseSearchResults vectorChunks keywordChunks keywords limit).map FusedChunk.id)
        ((List.mergeSort (scoredEntries vectorChunks keywordChunks keywords)
          fuseLe).map FusedChunk.id) := by
      rw [fuseSearchResults]
      exact (List.take_sublist _ _).map _
    exact hsorted.sublist hsub
  · rw [fuseSearchResults]
    simpa using Nat.min_le_left limit _

/-! ## C4: every fused score and match ratio lies in [0, 1] -/

lemma le_foldl_max (l : List ℚ) (a : ℚ) : a ≤ l.foldl max a := by
  induction l generalizing a with
  | nil => simp
  | cons x xs ih => exact le_trans (le_max_left a x) (ih (max a x))

lemma mem_le_foldl_max (l : List ℚ) (a x : ℚ) (hx : x ∈ l) : x ≤ l.foldl max a := by
  induction l generalizing a with
  | nil => cases hx
  | cons y ys ih =>
    rcases List.mem_cons.mp hx with rfl | h
    · exact le_trans (le_max_right a x) (le_foldl_max ys (max a x))
    · exact ih (max a y) h

lemma foldl_min_le (l : List ℚ) (a : ℚ) : l.foldl min a ≤ a := by
  induction l generalizing a with
  | nil => simp
  | cons x xs ih => exact le_trans (ih (min a x)) (min_le_left a x)

lemma foldl_min_le_mem (l : List ℚ) (a x : ℚ) (hx : x ∈ l) : l.foldl min a ≤ x := by
  induction l generalizing a with
  | nil => cases hx
  | cons y ys ih =>
    rcases List.mem_cons.mp hx with rfl | h
    · exact le_trans (foldl_min_le ys (min a x)) (min_le_right a x)
    · exact ih (min a y) h

lemma mem_le_maxScoreOr (l : List ℚ) (d x : ℚ) (hx : x ∈ l) : x ≤ maxScoreOr l d := by
  cases l with
  | nil => cases hx
  | cons y ys =>
    rcases List.mem_cons.mp hx with rfl | h
    · exact le_foldl_max ys x
    · exact mem_le_foldl_max ys y x h

lemma minScoreOr_le_mem (l : List ℚ) (d x : ℚ) (hx : x ∈ l) : minScoreOr l d ≤ x := by
  cases l with
  | nil => cases hx
  | cons y ys =>
    rcases List.mem_cons.mp hx with rfl | h
    · exact foldl_min_le ys x
    · exact foldl_min_le_mem ys y x h

/-- The score fields of a fused entry originate in the corresponding
channel: a positive vector (resp. keyword) score appears among the positive
channel scores the normalization ranges over. -/
def chunkScoresOk (vectorChunks keywordChunks : List Chunk) (e : FusedChunk) : Prop :=
  (0 < e.vector_score → e.vector_score ∈ vectorScores vectorChunks) ∧
  (0 < e.keyword_score → e.keyword_score ∈ keywordScores keywordChunks)

lemma mem_foldl_addVector (l : List Chunk) (m : List FusedChunk) (e : FusedChunk)
    (he : e ∈ l.foldl addVector m) : e ∈ m ∨ ∃ c ∈ l, e = baseOfVector c := by
  induction l generalizing m with
  | nil => exact Or.inl he
  | cons c rest ih =>
    rcases ih (addVector m c) he with hm | ⟨c1, hc1, rfl⟩
    · rw [addVector] at hm
      by_cases hany : (m.any fun e => e.id == c.id) = true
      · rw [if_pos hany] at hm
        exact Or.inl hm
      · rw [if_neg hany] at hm
        rcases List.mem_append.mp hm with h | h
        · exact Or.inl h
        · simp only [List.mem_singleton] at h
          exact Or.inr ⟨c, List.mem_cons_self c rest, h⟩
    · exact Or.inr ⟨c1, List.mem_cons_of_mem c hc1, rfl⟩

lemma foldl_addKeyword_pres (P : FusedChunk → Prop) (l : List Chunk) (m : List FusedChunk)
    (hm : ∀ e ∈ m, P e)
    (hupd : ∀ e c, c ∈ l → P e → P { e with keyword_score := kwOr0 c })
    (hnew : ∀ c ∈ l, P (baseOfKeyword c)) :
    ∀ e ∈ l.foldl addKeyword m, P e := by
  induction l generalizing m with
  | nil => exact hm
  | cons c rest ih =>
    refine ih (addKeyword m c) ?_ ?_ ?_
    · intro e he
      rw [addKeyword] at he
      by_cases hany : (m.any fun e => e.id == c.id) = true
      · rw [if_pos hany] at he
        rcases List.mem_map.mp he with ⟨e0, he0, rfl⟩
        by_cases hid : e0.id = c.id
        · simpa [hid] using hupd e0 c (List.mem_cons_self c rest) (hm e0 he0)
        · simpa [hid] using hm e0 he0
      · rw [if_neg hany] at he
        rcases List.mem_append.mp he with h | h
        · exact hm _ h
        · simp only [List.mem_singleton] at h
          subst h
          exact hnew c (List.mem_cons_self c rest)
    · intro e c1 hc1 hP
      exact hupd e c1 (List.mem_cons_of_mem c hc1) hP
    · intro c1 hc1
      exact hnew c1 (List.mem_cons_of_mem c hc1)

lemma resultEntries_scores_ok (vectorChunks keywordChunks : List Chunk) :
    ∀ e ∈ resultEntries vectorChunks keywordChunks, chunkScoresOk vectorChunks keywordChunks e := by
  rw [resultEntries]
  refine foldl_addKeyword_pres _ keywordChunks _ ?_ ?_ ?_
  · intro e he
    rcases mem_foldl_addVector vectorChunks [] e he with h | ⟨c, hc, rfl⟩
    · cases h
    · constructor
      · intro hpos
        rw [vectorScores, posScores]
        refine List.mem_filter.mpr ⟨List.mem_map.mpr ⟨c, hc, rfl⟩, by simpa using hpos⟩
      · intro hpos
        simp [baseOfVector] at hpos
  · intro e c hc hP
    constructor
    · intro hpos
      exact hP.1 hpos
    · intro hpos
      rw [keywordScores, posScores]
      refine List.mem_filter.mpr ⟨List.mem_map.mpr ⟨c, hc, rfl⟩, by simpa using hpos⟩
  · intro c hc
    constructor
    · intro hpos
      simp [baseOfKeyword] at hpos
    · intro hpos
      rw [keywordScores, posScores]
      refine List.mem_filter.mpr ⟨List.mem_map.mpr ⟨c, hc, rfl⟩, by simpa using hpos⟩

lemma normVec_nonneg (vectorChunks : List Chunk) (vs : ℚ)
    (h : 0 < vs → vs ∈ vectorScores vectorChunks) :
    0 ≤ normVec (minVectorScore vectorChunks) (maxVectorScore vectorChunks) vs := by
  rw [normVec]
  by_cases h1 : 0 < vs ∧ minVectorScore vectorChunks < maxVectorScore vectorChunks
  · rw [if_pos h1]
    have hmin := minScoreOr_le_mem (vectorScores vectorChunks) 0 vs (h h1.1)
    rw [minVectorScore] at h1 ⊢
    apply div_nonneg <;> linarith [h1.2]
  · rw [if_neg h1]
    by_cases h2 : 0 < vs
    · rw [if_pos h2]; linarith
    · rw [if_neg h2]

lemma normKw_nonneg (keywordChunks : List Chunk) (ks : ℚ)
    (h : 0 < ks → ks ∈ keywordScores keywordChunks) :
    0 ≤ normKw (minKeywordScore keywordChunks) (maxKeywordScore keywordChunks) ks := by
  rw [normKw]
  by_cases h1 : 0 < ks ∧ minKeywordScore keywordChunks < maxKeywordScore keywordChunks
  · rw [if_pos h1]
    have hmin := minScoreOr_le_mem (keywordScores keywordChunks) 0 ks (h h1.1)
    rw [minKeywordScore] at h1 ⊢
    apply div_nonneg <;> linarith [h1.2]
  · rw [if_neg h1]
    by_cases h2 : 0 < ks
    · rw [if_pos h2]
      exact le_min (by positivity) (by norm_num)
    · rw [if_neg h2]

lemma keywordMatchRatio_bounds (keywords : List Text) (content : Text) :
    0 ≤ keywordMatchRatio keywords content ∧ keywordMatchRatio keywords content ≤ 1 := by
  rw [keywordMatchRatio]
  by_cases h : keywords.length = 0
  · simp [h]
  · rw [if_neg h]
    have hpos : (0 : ℚ) < (keywords.length : ℚ) := by
      exact_mod_cast Nat.pos_of_ne_zero h
    constructor
    · positivity
    · rw [div_le_one hpos]
      exact_mod_cast List.length_filter_le _ _

lemma hybridVal_bounds (vectorChunks keywordChunks : List Chunk) (keywords : List Text)
    (vs ks : ℚ) (content : Text)
    (hv : 0 < vs → vs ∈ vectorScores vectorChunks)
    (hk : 0 < ks → ks ∈ keywordScores keywordChunks) :
    0 ≤ hybridVal (minVectorScore vectorChunks) (maxVectorScore vectorChunks)
        (minKeywordScore keywordChunks) (maxKeywordScore keywordChunks) keywords vs ks content ∧
    hybridVal (minVectorScore vectorChunks) (maxVectorScore vectorChunks)
        (minKeywordScore keywordChunks) (maxKeywordScore keywordChunks) keywords vs ks content
      ≤ 1 := by
  have hnv := normVec_nonneg vectorChunks vs hv
  have hnk := normKw_nonneg keywordChunks ks hk
  have hkmr := keywordMatchRatio_bounds keywords content
  rw [hybridVal]
  constructor
  · apply le_min _ (by norm_num)
    have hvw : (0 : ℚ) ≤ (if 8 / 10 < keywordMatchRatio keywords content
        then (1 : ℚ) / 2 else 6 / 10) := by split <;> norm_num
    have hkw : (0 : ℚ) ≤ (if 8 / 10 < keywordMatchRatio keywords content
        then (1 : ℚ) / 2 else 4 / 10) := by split <;> norm_num
    have hb1 : (0 : ℚ) ≤ (if 0 < vs ∧ 0 < ks then (1 : ℚ) / 10 else 0) := by split <;> norm_num
    have hb2 : (0 : ℚ) ≤ (if 1 / 2 < keywordMatchRatio keywords content
        then keywordMatchRatio keywords content * (1 / 10) else 0) := by
      split
      · nlinarith [hkmr.1]
      · norm_num
    have := mul_nonneg hnv hvw
    have := mul_nonneg hnk hkw
    linarith
  · exact min_le_right _ _

/-- C4: every passage in the output of `fuseSearchResults` carries a
hybrid score in [0, 1] and a keyword match ratio in [0, 1]. -/
theorem fuseSearchResults_score_bounds (vectorChunks keywordChunks : List Chunk)
    (keywords : List Text) (limit : ℕ) (e : FusedChunk)
    (he : e ∈ fuseSearchResults vectorChunks keywordChunks keywords limit) :
    0 ≤ e.hybrid_score ∧ e.hybrid_score ≤ 1 ∧
    0 ≤ e.keyword_match_ratio ∧ e.keyword_match_ratio ≤ 1 := by
  have hmem : e ∈ scoredEntries vectorChunks keywordChunks keywords := by
    rw [fuseSearchResults] at he
    exact ((List.mergeSort_perm _ _).mem_iff).mp ((List.take_sublist _ _).subset he)
  rcases List.mem_map.mp hmem with ⟨e0, he0, rfl⟩
  have hok := resultEntries_scores_ok vectorChunks keywordChunks e0 he0
  have hb := hybridVal_bounds vectorChunks keywordChunks keywords
    e0.vector_score e0.keyword_score e0.content hok.1 hok.2
  have hr := keywordMatchRatio_bounds keywords e0.content
  exact ⟨hb.1, hb.2, hr.1, hr.2⟩

/-! ## Concrete evaluations of the fusion stage -/

lemma mem_fuseSearchResults_iff (vectorChunks keywordChunks : List Chunk)
    (keywords : List Text) (limit : ℕ)
    (hlen : (scoredEntries vectorChunks keywordChunks keywords).length ≤ limit)
    (e : FusedChunk) :
    e ∈ fuseSearchResults vectorChunks keywordChunks keywords limit ↔
      e ∈ scoredEntries vectorChunks keywordChunks keywords := by
  rw [fuseSearchResults, List.take_of_length_le
    (by rw [(List.mergeSort_perm _ _).length_eq]; exact hlen)]
  exact (List.mergeSort_perm _ _).mem_iff

/-- The fused entry produced for `chunkA` alone in the vector channel. -/
def fusedA : FusedChunk :=
  ⟨"a", ['a', 'b'], 0, none, 9 / 10, 0, 27 / 50, 0, 9 / 10, 0⟩

lemma scoredEntries_chunkA : scoredEntries [chunkA] [] [] = [fusedA] := by
  norm_num [scoredEntries, resultEntries, addVector, baseOfVector, scoreEntry, hybridVal,
    normVec, normKw, keywordMatchRatio, minVectorScore, maxVectorScore, minKeywordScore,
    maxKeywordScore, vectorScores, keywordScores, posScores, maxScoreOr, minScoreOr,
    simOr0, kwOr0, chunkA, fusedA, List.filter]

/-- Witness for C4 at a concrete input: the single fused entry of a
one-chunk vector channel satisfies all four bounds. -/
theorem fuseSearchResults_score_bounds_witness :
    fusedA ∈ fuseSearchResults [chunkA] [] [] 5 ∧
    (0 ≤ fusedA.hybrid_score ∧ fusedA.hybrid_score ≤ 1 ∧
      0 ≤ fusedA.keyword_match_ratio ∧ fusedA.keyword_match_ratio ≤ 1) := by
  have hmem : fusedA ∈ fuseSearchResults [chunkA] [] [] 5 :=
    (mem_fuseSearchResults_iff [chunkA] [] [] 5 (by rw [scoredEntries_chunkA]; norm_num)
      fusedA).mpr (by rw [scoredEntries_chunkA]; exact List.mem_singleton.mpr rfl)
  exact ⟨hmem, fuseSearchResults_score_bounds [chunkA] [] [] 5 fusedA hmem⟩

/-! ## C3: score normalization in the fusion stage -/

/-- C3 (amended): for every entry of a fused list, the vector score is
min-max normalized over the positive vector-channel scores when that range
is proper; when the range collapses to a point (in particular when only one
non-zero vector score exists) the raw vector score is passed through
unchanged — not set to 1.0.  The keyword score is min-max normalized when
its range is proper, and otherwise divided by the fixed cap 5 and clamped
to 1. -/
theorem fuseSearchResults_normalization (vectorChunks keywordChunks : List Chunk)
    (keywords : List Text) (limit : ℕ) (e : FusedChunk)
    (he : e ∈ fuseSearchResults vectorChunks keywordChunks keywords limit) :
    (0 < e.vector_score → minVectorScore vectorChunks < maxVectorScore vectorChunks →
      e.normalized_vector_score =
        (e.vector_score - minVectorScore vectorChunks) /
        (maxVectorScore vectorChunks - minVectorScore vectorChunks)) ∧
    (0 < e.vector_score → ¬ minVectorScore vectorChunks < maxVectorScore vectorChunks →
      e.normalized_vector_score = e.vector_score) ∧
    (0 < e.keyword_score → minKeywordScore keywordChunks < maxKeywordScore keywordChunks →
      e.normalized_keyword_score =
        (e.keyword_score - minKeywordScore keywordChunks) /
        (maxKeywordScore keywordChunks - minKeywordScore keywordChunks)) ∧
    (0 < e.keyword_score → ¬ minKeywordScore keywordChunks < maxKeywordScore keywordChunks →
      e.normalized_keyword_score = min (e.keyword_score / 5) 1) := by
  have hmem : e ∈ scoredEntries vectorChunks keywordChunks keywords := by
    rw [fuseSearchResults] at he
    exact ((List.mergeSort_perm _ _).mem_iff).mp ((List.take_sublist _ _).subset he)
  rcases List.mem_map.mp hmem with ⟨b, hb, rfl⟩
  simp only [scoreEntry]
  refine ⟨?_, ?_, ?_, ?_⟩ <;> intro hpos hrange
  · rw [normVec, if_pos ⟨hpos, hrange⟩]
  · rw [normVec, if_neg (fun hcon => hrange hcon.2), if_pos hpos]
  · rw [normKw, if_pos ⟨hpos, hrange⟩]
  · rw [normKw, if_neg (fun hcon => hrange hcon.2), if_pos hpos]

/-- Counterexample to C3 as stated: with one non-zero vector score 9/10 the
normalized value is 9/10 (the raw score), not 1.0. -/
theorem fuseSearchResults_normalization_counterexample :
    vectorScores [chunkA] = [9 / 10] ∧
    fusedA ∈ fuseSearchResults [chunkA] [] [] 5 ∧
    fusedA.normalized_vector_score = 9 / 10 ∧
    ¬ fusedA.normalized_vector_score = 1 := by
  refine ⟨?_, ?_, rfl, by norm_num [fusedA]⟩
  · norm_num [vectorScores, posScores, simOr0, chunkA, List.filter]
  · exact (mem_fuseSearchResults_iff [chunkA] [] [] 5 (by rw [scoredEntries_chunkA]; norm_num)
      fusedA).mpr (by rw [scoredEntries_chunkA]; exact List.mem_singleton.mpr rfl)

/-- A keyword-channel chunk with score 3 used in concrete instantiations. -/
def kwChunk : Chunk := ⟨"k", ['a', 'b'], none, some 3, none, 0⟩

/-- The fused entry produced for `kwChunk` alone in the keyword channel. -/
def fusedK : FusedChunk := ⟨"k", ['a', 'b'], 0, none, 0, 3, 6 / 25, 0, 0, 3 / 5⟩

lemma scoredEntries_kwChunk : scoredEntries [] [kwChunk] [] = [fusedK] := by
  norm_num [scoredEntries, resultEntries, addKeyword, baseOfKeyword, scoreEntry, hybridVal,
    normVec, normKw, keywordMatchRatio, minVectorScore, maxVectorScore, minKeywordScore,
    maxKeywordScore, vectorScores, keywordScores, posScores, maxScoreOr, minScoreOr,
    simOr0, kwOr0, kwChunk, fusedK, List.filter]

/-- Witness for C3 at a concrete input: a keyword-only entry with a
collapsed keyword range is normalized by the divide-by-5-and-clamp rule. -/
theorem fuseSearchResults_normalization_witness :
    fusedK ∈ fuseSearchResults [] [kwChunk] [] 5 ∧
    fusedK.normalized_keyword_score = min (fusedK.keyword_score / 5) 1 := by
  have hmem : fusedK ∈ fuseSearchResults [] [kwChunk] [] 5 :=
    (mem_fuseSearchResults_iff [] [kwChunk] [] 5 (by rw [scoredEntries_kwChunk]; norm_num)
      fusedK).mpr (by rw [scoredEntries_kwChunk]; exact List.mem_singleton.mpr rfl)
  refine ⟨hmem, (fuseSearchResults_normalization [] [kwChunk] [] 5 fusedK hmem).2.2.2 ?_ ?_⟩
  · norm_num [fusedK]
  · norm_num [minKeywordScore, maxKeywordScore, keywordScores, posScores, kwOr0, kwChunk,
      minScoreOr, maxScoreOr, List.filter]

/-! ## C6: the cross-channel bonus is monotone -/

lemma hybridVal_keyword_mono (vectorChunks keywordChunks : List Chunk) (keywords : List Text)
    (vs ks : ℚ) (content : Text)
    (hk : 0 < ks → ks ∈ keywordScores keywordChunks) :
    hybridVal (minVectorScore vectorChunks) (maxVectorScore vectorChunks)
      (minKeywordScore keywordChunks) (maxKeywordScore keywordChunks) keywords vs 0 content ≤
    hybridVal (minVectorScore vectorChunks) (maxVectorScore vectorChunks)
      (minKeywordScore keywordChunks) (maxKeywordScore keywordChunks) keywords vs ks content := by
  have hnk := normKw_nonneg keywordChunks ks hk
  simp only [hybridVal]
  apply min_le_min _ (le_refl 1)
  have h0 : normKw (minKeywordScore keywordChunks) (maxKeywordScore keywordChunks) 0 = 0 := by
    simp [normKw]
  rw [h0]
  have hkw : (0 : ℚ) ≤ (if 8 / 10 < keywordMatchRatio keywords content
      then (1 : ℚ) / 2 else 4 / 10) := by split <;> norm_num
  have hb1 : (0 : ℚ) ≤ (if 0 < vs ∧ 0 < ks then (1 : ℚ) / 10 else 0) := by split <;> norm_num
  have hb0 : (if 0 < vs ∧ 0 < (0 : ℚ) then (1 : ℚ) / 10 else 0) = 0 := by norm_num
  rw [hb0]
  have hprod := mul_nonneg hnk hkw
  linarith

/-- C6: in any fused list, a passage present in both channels has a hybrid
score at least that of a passage with the same vector score and the same
text content that is present only in the vector channel (keyword score 0). -/
theorem fuseSearchResults_bonus_mono (vectorChunks keywordChunks : List Chunk)
    (keywords : List Text) (limit : ℕ) (e1 e2 : FusedChunk)
    (h1 : e1 ∈ fuseSearchResults vectorChunks keywordChunks keywords limit)
    (h2 : e2 ∈ fuseSearchResults vectorChunks keywordChunks keywords limit)
    (hv : e1.vector_score = e2.vector_score)
    (hcont : e1.content = e2.content)
    (hk2 : e2.keyword_score = 0) :
    e2.hybrid_score ≤ e1.hybrid_score := by
  have hmem1 : e1 ∈ scoredEntries vectorChunks keywordChunks keywords := by
    rw [fuseSearchResults] at h1
    exact ((List.mergeSort_perm _ _).mem_iff).mp ((List.take_sublist _ _).subset h1)
  have hmem2 : e2 ∈ scoredEntries vectorChunks keywordChunks keywords := by
    rw [fuseSearchResults] at h2
    exact ((List.mergeSort_perm _ _).mem_iff).mp ((List.take_sublist _ _).subset h2)
  rcases List.mem_map.mp hmem1 with ⟨b1, hb1, rfl⟩
  rcases List.mem_map.mp hmem2 with ⟨b2, hb2, rfl⟩
  have hok1 := resultEntries_scores_ok vectorChunks keywordChunks b1 hb1
  simp only [scoreEntry] at hv hcont hk2 ⊢
  rw [hk2, ← hv, ← hcont]
  exact hybridVal_keyword_mono vectorChunks keywordChunks keywords
    b1.vector_score b1.keyword_score b1.content hok1.2

/-- Passages used by the C6 witness: same vector score and content, one of
them also in the keyword channel. -/
def cBoth : Chunk := ⟨"x", ['a', 'b'], some (1 / 2), none, none, 0⟩

def cVec : Chunk := ⟨"y", ['a', 'b'], some (1 / 2), none, none, 0⟩

def kBoth : Chunk := ⟨"x", ['a', 'b'], none, some 3, none, 0⟩

def fusedBoth : FusedChunk := ⟨"x", ['a', 'b'], 0, none, 1 / 2, 3, 16 / 25, 0, 1 / 2, 3 / 5⟩

def fusedVec : FusedChunk := ⟨"y", ['a', 'b'], 0, none, 1 / 2, 0, 3 / 10, 0, 1 / 2, 0⟩

lemma scoredEntries_both : scoredEntries [cBoth, cVec] [kBoth] [] = [fusedBoth, fusedVec] := by
  have hxy : ("x" : String) ≠ "y" := by decide
  have hyx : ("y" : String) ≠ "x" := by decide
  norm_num [hxy, hyx, scoredEntries, resultEntries, addVector, addKeyword, baseOfVector, baseOfKeyword,
    scoreEntry, hybridVal, normVec, normKw, keywordMatchRatio, minVectorScore, maxVectorScore,
    minKeywordScore, maxKeywordScore, vectorScores, keywordScores, posScores, maxScoreOr,
    minScoreOr, simOr0, kwOr0, cBoth, cVec, kBoth, fusedBoth, fusedVec, List.filter]

/-- Witness for C6 at a concrete input: the entry present in both channels
outscores the vector-only entry with the same vector score and content. -/
theorem fuseSearchResults_bonus_mono_witness :
    fusedBoth ∈ fuseSearchResults [cBoth, cVec] [kBoth] [] 5 ∧
    fusedVec ∈ fuseSearchResults [cBoth, cVec] [kBoth] [] 5 ∧
    fusedVec.hybrid_score ≤ fusedBoth.hybrid_score := by
  have hlen : (scoredEntries [cBoth, cVec] [kBoth] []).length ≤ 5 := by
    rw [scoredEntries_both]; norm_num
  have hmem1 : fusedBoth ∈ fuseSearchResults [cBoth, cVec] [kBoth] [] 5 :=
    (mem_fuseSearchResults_iff [cBoth, cVec] [kBoth] [] 5 hlen fusedBoth).mpr
      (by rw [scoredEntries_both]; simp)
  have hmem2 : fusedVec ∈ fuseSearchResults [cBoth, cVec] [kBoth] [] 5 :=
    (mem_fuseSearchResults_iff [cBoth, cVec] [kBoth] [] 5 hlen fusedVec).mpr
      (by rw [scoredEntries_both]; simp)
  exact ⟨hmem1, hmem2, fuseSearchResults_bonus_mono [cBoth, cVec] [kBoth] [] 5
    fusedBoth fusedVec hmem1 hmem2 (by norm_num [fusedBoth, fusedVec])
    (by norm_num [fusedBoth, fusedVec]) (by norm_num [fusedVec])⟩

/-! ## Lexical search (`fallbackKeywordSearch`, searchService.ts)

The store call (`ilike '%term%'` conditions OR-combined, ordered by
`created_at` descending, fetching `limit * 2` rows) is modelled over an
explicit table of chunks, with `ilike` read as case-insensitive substring
matching of the literal term. -/

structure RankedChunk where
  chunk : Chunk
  keyword_score : ℕ
  match_ratio : ℚ
  matched_keywords : ℕ
  deriving DecidableEq, Repr

/-- Non-overlapping, left-to-right occurrence counting with explicit fuel
(one character of fuel per scan step, so `s.length` fuel is exact); after a
match the scan resumes past the matched text, as a JS global regex does. -/
def countOccurFuel (pat : Text) : ℕ → Text → ℕ
  | 0, _ => 0
  | _, [] => 0
  | fuel + 1, c :: rest =>
    if pat.isPrefixOf (c :: rest) then 1 + countOccurFuel pat fuel (rest.drop (pat.length - 1))
    else countOccurFuel pat fuel rest

/-- JS `(content.match(new RegExp(escapedTerm, 'g')) || []).length`: the
escaped term matches as a literal; the empty pattern matches at every
position including the end. -/
def countOccur (pat s : Text) : ℕ :=
  match pat with
  | [] => s.length + 1
  | _ :: _ => countOccurFuel pat s.length s

/-- The terms of the supplied list found in the content
(case-insensitive `includes`), in order. -/
def matchedTerms (terms : List Text) (content : Text) : List Text :=
  terms.filter (fun t => containsCI content t)

/-- The per-chunk scoring of `fallbackKeywordSearch`: spread the chunk and
attach `keyword_score` (summed occurrence counts of the matched terms),
`match_ratio` (matched terms over supplied terms) and `matched_keywords`. -/
def rankChunk (terms : List Text) (c : Chunk) : RankedChunk :=
  { chunk := c,
    keyword_score := ((matchedTerms terms c.content).map
      (fun t => countOccur (lowerText t) (lowerText c.content))).sum,
    match_ratio := if terms.length = 0 then 0
      else ((matchedTerms terms c.content).length : ℚ) / (terms.length : ℚ),
    matched_keywords := (matchedTerms terms c.content).length }

/-- The sort comparator of `fallbackKeywordSearch` as a boolean "a may come
before b": match ratio descending, then keyword score descending, then
`created_at` (recency) descending. -/
def rankLe (a b : RankedChunk) : Bool :=
  if a.match_ratio ≠ b.match_ratio then decide (b.match_ratio ≤ a.match_ratio)
  else if a.keyword_score ≠ b.keyword_score then decide (b.keyword_score ≤ a.keyword_score)
  else decide (b.chunk.created_at ≤ a.chunk.created_at)

/-- The ordering the comparator realizes, as a proposition. -/
def rankGe (a b : RankedChunk) : Prop :=
  b.match_ratio < a.match_ratio ∨ (a.match_ratio = b.match_ratio ∧
    (b.keyword_score < a.keyword_score ∨ (a.keyword_score = b.keyword_score ∧
      b.chunk.created_at ≤ a.chunk.created_at)))

/-- The store query: rows whose content contains at least one term
(OR-combined `ilike`), newest first, at most `fetchLimit` rows. -/
def dbTextSearch (table : List Chunk) (terms : List Text) (fetchLimit : ℕ) : List Chunk :=
  (((table.filter (fun c => terms.any (fun t => containsCI c.content t))).mergeSort
    (fun a b => decide (b.created_at ≤ a.created_at))).take fetchLimit)

/-- JS `searchKeywords.length > 0 ? searchKeywords : [query]`. -/
def effectiveTerms (keywords : List Text) (query : Text) : List Text :=
  if keywords.length = 0 then [query] else keywords

/-- Translation of `fallbackKeywordSearch` (searchService.ts) over an
explicit table: fetch `limit * 2` candidate rows, score them, sort by the
three-level comparator, keep the first `limit`.  (The early `return []` for
an empty row set coincides with ranking the empty list.) -/
def fallbackKeywordSearch (table : List Chunk) (query : Text) (keywords : List Text)
    (limit : ℕ) : List RankedChunk :=
  let searchTerms := effectiveTerms keywords query
  let chunks := dbTextSearch table searchTerms (limit * 2)
  ((chunks.map (rankChunk searchTerms)).mergeSort rankLe).take limit

/-! ## The orchestrator (`searchRelevantChunks`, searchService.ts) -/

inductive HybridResult where
  | lexicalOnly (chunks : List RankedChunk)
  | vectorOnly (chunks : List Chunk)
  | fused (chunks : List FusedChunk)
  | empty
  deriving DecidableEq, Repr

/-- Translation of `generateQueryEmbedding` (embeddingService.ts): the
outcome of the external embedding service is passed through on success and
rethrown wrapped in a new error message on failure — the failure is never
converted into an empty or placeholder vector. -/
def generateQueryEmbedding (embSvc : Except String (List ℚ)) : Except String (List ℚ) :=
  match embSvc with
  | Except.ok e => Except.ok e
  | Except.error msg => Except.error ("阿里云嵌入服务失败: " ++ msg)

/-- A ranked lexical result as handed to `fuseSearchResults` (the same JS
object: its `keyword_score` field is the term-frequency sum). -/
def RankedChunk.toFusionInput (r : RankedChunk) : Chunk :=
  { r.chunk with keyword_score := some (r.keyword_score : ℚ) }

/-- Translation of `searchRelevantChunks` (searchService.ts).  The settled
outcomes of the external calls are parameters: `embSvc` is the embedding
service outcome, `vectorStore` maps a query vector and a match count to the
vector store outcome, `table` backs the lexical store.  The `await` of
`generateQueryEmbedding` is outside every `try`, so its error propagates;
an embedding that resolves empty falls back to lexical-only; empty keywords
lead to vector-only search (errors there are caught); otherwise both
channels run, errors in a channel yield that channel's empty list
(`Promise.allSettled`), and the results are fused. -/
def searchRelevantChunks (embSvc : Except String (List ℚ)) (keywords : List Text)
    (vectorStore : List ℚ → ℕ → Except String (List Chunk))
    (table : List Chunk) (query : Text) (limit : ℕ) : Except String HybridResult :=
  match generateQueryEmbedding embSvc with
  | Except.error msg => Except.error msg
  | Except.ok queryEmbedding =>
    if queryEmbedding.isEmpty then
      Except.ok (HybridResult.lexicalOnly (fallbackKeywordSearch table query keywords limit))
    else if keywords.isEmpty then
      match vectorStore queryEmbedding limit with
      | Except.ok vs => Except.ok (HybridResult.vectorOnly vs)
      | Except.error _ => Except.ok HybridResult.empty
    else
      let vectorChunks := match vectorStore queryEmbedding (limit * 2) with
        | Except.ok vs => vs
        | Except.error _ => []
      let keywordChunks := fallbackKeywordSearch table query keywords (limit * 2)
      if vectorChunks.isEmpty ∧ keywordChunks.isEmpty then Except.ok HybridResult.empty
      else Except.ok (HybridResult.fused (fuseSearchResults vectorChunks
        (keywordChunks.map RankedChunk.toFusionInput) keywords limit))

/-! ## C7: the lexical stage filters, scores and orders as specified -/

lemma rankLe_iff (a b : RankedChunk) : rankLe a b = true ↔ rankGe a b := by
  rw [rankLe, rankGe]
  by_cases h1 : a.match_ratio = b.match_ratio
  · rw [if_neg (fun hc => hc h1)]
    by_cases h2 : a.keyword_score = b.keyword_score
    · rw [if_neg (fun hc => hc h2)]
      simp only [decide_eq_true_eq, h1, h2]
      constructor
      · intro h
        exact Or.inr ⟨trivial, Or.inr ⟨trivial, h⟩⟩
      · intro h
        rcases h with h | ⟨_, h⟩
        · exact absurd h (lt_irrefl _)
        · rcases h with h | ⟨_, h⟩
          · exact absurd h (lt_irrefl _)
          · exact h
    · rw [if_pos h2]
      simp only [decide_eq_true_eq, h1]
      constructor
      · intro h
        exact Or.inr ⟨trivial, Or.inl (lt_of_le_of_ne h (fun hc => h2 hc.symm))⟩
      · intro h
        rcases h with h | ⟨_, h⟩
        · exact absurd h (lt_irrefl _)
        · rcases h with h | ⟨hks, _⟩
          · exact le_of_lt h
          · exact absurd hks h2
  · rw [if_pos h1]
    simp only [decide_eq_true_eq]
    constructor
    · intro h
      exact Or.inl (lt_of_le_of_ne h (fun hc => h1 hc.symm))
    · intro h
      rcases h with h | ⟨hr, _⟩
      · exact le_of_lt h
      · exact absurd hr h1

lemma rankGe_trans (a b c : RankedChunk) (h1 : rankGe a b) (h2 : rankGe b c) : rankGe a c := by
  rcases h1 with h1 | ⟨hr1, h1⟩
  · rcases h2 with h2 | ⟨hr2, _⟩
    · exact Or.inl (lt_trans h2 h1)
    · exact Or.inl (hr2 ▸ h1)
  · rcases h2 with h2 | ⟨hr2, h2⟩
    · exact Or.inl (lt_of_lt_of_eq h2 hr1.symm)
    · refine Or.inr ⟨hr1.trans hr2, ?_⟩
      rcases h1 with hk1 | ⟨hke1, hd1⟩
      · rcases h2 with hk2 | ⟨hke2, _⟩
        · exact Or.inl (lt_trans hk2 hk1)
        · exact Or.inl (hke2 ▸ hk1)
      · rcases h2 with hk2 | ⟨hke2, hd2⟩
        · exact Or.inl (lt_of_lt_of_eq hk2 hke1.symm)
        · exact Or.inr ⟨hke1.trans hke2, le_trans hd2 hd1⟩

lemma rankLe_trans (a b c : RankedChunk) (h1 : rankLe a b = true) (h2 : rankLe b c = true) :
    rankLe a c = true :=
  (rankLe_iff a c).mpr (rankGe_trans a b c ((rankLe_iff a b).mp h1) ((rankLe_iff b c).mp h2))

lemma rankLe_total (a b : RankedChunk) : (rankLe a b || rankLe b a) = true := by
  rw [Bool.or_eq_true, rankLe_iff, rankLe_iff, rankGe, rankGe]
  rcases lt_trichotomy a.match_ratio b.match_ratio with h | h | h
  · exact Or.inr (Or.inl h)
  · rcases lt_trichotomy a.keyword_score b.keyword_score with h2 | h2 | h2
    · exact Or.inr (Or.inr ⟨h.symm, Or.inl h2⟩)
    · rcases le_total b.chunk.created_at a.chunk.created_at with h3 | h3
      · exact Or.inl (Or.inr ⟨h, Or.inr ⟨h2, h3⟩⟩)
      · exact Or.inr (Or.inr ⟨h.symm, Or.inr ⟨h2.symm, h3⟩⟩)
    · exact Or.inl (Or.inr ⟨h, Or.inl h2⟩)
  · exact Or.inl (Or.inl h)

lemma fallbackKeywordSearch_origin (table : List Chunk) (query : Text) (keywords : List Text)
    (limit : ℕ) (r : RankedChunk)
    (hr : r ∈ fallbackKeywordSearch table query keywords limit) :
    ∃ c ∈ table, r = rankChunk (effectiveTerms keywords query) c ∧
      (effectiveTerms keywords query).any (fun t => containsCI c.content t) = true := by
  simp only [fallbackKeywordSearch] at hr
  have h1 : r ∈ (dbTextSearch table (effectiveTerms keywords query) (limit * 2)).map
      (rankChunk (effectiveTerms keywords query)) :=
    ((List.mergeSort_perm _ _).mem_iff).mp ((List.take_sublist _ _).subset hr)
  rcases List.mem_map.mp h1 with ⟨c, hc, rfl⟩
  simp only [dbTextSearch] at hc
  have h2 : c ∈ table.filter
      (fun c => (effectiveTerms keywords query).any (fun t => containsCI c.content t)) :=
    ((List.mergeSort_perm _ _).mem_iff).mp ((List.take_sublist _ _).subset hc)
  rcases List.mem_filter.mp h2 with ⟨hct, hmatch⟩
  exact ⟨c, hct, rfl, hmatch⟩

lemma fallbackKeywordSearch_sorted (table : List Chunk) (query : Text) (keywords : List Text)
    (limit : ℕ) : (fallbackKeywordSearch table query keywords limit).Pairwise rankGe := by
  simp only [fallbackKeywordSearch]
  apply List.Pairwise.sublist (List.take_sublist _ _)
  have h := List.sorted_mergeSort rankLe_trans rankLe_total
    ((dbTextSearch table (effectiveTerms keywords query) (limit * 2)).map
      (rankChunk (effectiveTerms keywords query)))
  exact h.imp (fun hab => (rankLe_iff _ _).mp hab)

/-- C7: every passage returned by the lexical stage contains at least one
effective search term; its keyword score is the summed occurrence count of
the matched terms (case-insensitive); and the output is ordered by match
ratio descending, then keyword score descending, then recency (created_at)
descending. -/
theorem fallbackKeywordSearch_spec (table : List Chunk) (query : Text) (keywords : List Text)
    (limit : ℕ) :
    (∀ r ∈ fallbackKeywordSearch table query keywords limit,
      (∃ t ∈ effectiveTerms keywords query, containsCI r.chunk.content t = true) ∧
      r.keyword_score = ((matchedTerms (effectiveTerms keywords query) r.chunk.content).map
        (fun t => countOccur (lowerText t) (lowerText r.chunk.content))).sum) ∧
    (fallbackKeywordSearch table query keywords limit).Pairwise rankGe := by
  refine ⟨?_, fallbackKeywordSearch_sorted table query keywords limit⟩
  intro r hr
  rcases fallbackKeywordSearch_origin table query keywords limit r hr with ⟨c, _, rfl, hmatch⟩
  constructor
  · rcases List.any_eq_true.mp hmatch with ⟨t, ht, hct2⟩
    exact ⟨t, ht, hct2⟩
  · rfl

lemma mergeSort_singleton_eq {α : Type} (le : α → α → Bool) (x : α) :
    List.mergeSort [x] le = [x] :=
  List.perm_singleton.mp (List.mergeSort_perm [x] le)

/-- The table row used by the C7 witness. -/
def tChunk : Chunk := ⟨"t", ['a', 'b', 'c'], none, none, none, 0⟩

/-- The ranked result for `tChunk` under the single term "ab". -/
def tRanked : RankedChunk := ⟨tChunk, 1, 1, 1⟩

lemma fallback_tChunk : fallbackKeywordSearch [tChunk] ['q'] [['a', 'b']] 5 = [tRanked] := by
  have hterms : effectiveTerms [['a', 'b']] ['q'] = [['a', 'b']] := rfl
  have hfilter : [tChunk].filter
      (fun c => [(['a', 'b'] : Text)].any (fun t => containsCI c.content t)) = [tChunk] := by
    decide
  have hrank : rankChunk [['a', 'b']] tChunk = tRanked := by
    have hocc : countOccur (lowerText ['a', 'b']) (lowerText tChunk.content) = 1 := by decide
    have hmt : matchedTerms [['a', 'b']] tChunk.content = [['a', 'b']] := by decide
    simp only [rankChunk, hmt, hocc, List.map_cons, List.map_nil, List.sum_cons, List.sum_nil,
      List.length_cons, List.length_nil, tRanked]
    norm_num
  simp only [fallbackKeywordSearch, dbTextSearch, hterms, hfilter, mergeSort_singleton_eq]
  norm_num [hrank, mergeSort_singleton_eq]

/-- Witness for C7 at a concrete input: the single returned passage
contains the term "ab" and carries keyword score 1. -/
theorem fallbackKeywordSearch_spec_witness :
    tRanked ∈ fallbackKeywordSearch [tChunk] ['q'] [['a', 'b']] 5 ∧
    ((∃ t ∈ effectiveTerms [['a', 'b']] ['q'], containsCI tRanked.chunk.content t = true) ∧
      tRanked.keyword_score = ((matchedTerms (effectiveTerms [['a', 'b']] ['q'])
        tRanked.chunk.content).map (fun t => countOccur (lowerText t)
          (lowerText tRanked.chunk.content))).sum) := by
  have hmem : tRanked ∈ fallbackKeywordSearch [tChunk] ['q'] [['a', 'b']] 5 := by
    rw [fallback_tChunk]
    exact List.mem_singleton.mpr rfl
  exact ⟨hmem, (fallbackKeywordSearch_spec [tChunk] ['q'] [['a', 'b']] 5).1 tRanked hmem⟩

/-! ## C8: empty extracted-term lists fall back to the raw query -/

/-- C8: when keyword extraction yields no terms, the lexical stage does not
abort: it searches with the raw query as its sole term, behaving exactly as
if the term list were `[query]`. -/
theorem fallbackKeywordSearch_raw_query (table : List Chunk) (query : Text) (limit : ℕ) :
    effectiveTerms [] query = [query] ∧
    fallbackKeywordSearch table query [] limit =
      fallbackKeywordSearch table query [query] limit := by
  constructor
  · rfl
  · rfl

/-! ## C1: embedding failure propagates out of the orchestrator -/

/-- The lexical table used by the C1 evaluation: four passages, each
containing one of the three extracted terms. -/
def lexTable : List Chunk :=
  [⟨"p1", ['a', 'b', ' ', 'x'], none, none, none, 4⟩,
   ⟨"p2", ['c', 'd', ' ', 'y'], none, none, none, 3⟩,
   ⟨"p3", ['e', 'f', ' ', 'z'], none, none, none, 2⟩,
   ⟨"p4", ['a', 'b', ' ', 'w'], none, none, none, 1⟩]

/-- Three extracted terms. -/
def kws3 : List Text := [['a', 'b'], ['c', 'd'], ['e', 'f']]

/-- C1, evaluated at the failing input: when the embedding service fails,
`searchRelevantChunks` rejects with the wrapped error — the `await` is
outside every `try` — even though the lexical channel would return 4
passages; the lexical-only fallback branch is reachable only when the
embedding resolves with an empty vector. -/
theorem searchRelevantChunks_embedding_failure :
    searchRelevantChunks (Except.error "network error") kws3 (fun _ _ => Except.ok [])
        lexTable ['q'] 5 =
      Except.error ("阿里云嵌入服务失败: " ++ "network error") ∧
    (fallbackKeywordSearch lexTable ['q'] kws3 5).length = 4 ∧
    searchRelevantChunks (Except.ok []) kws3 (fun _ _ => Except.ok []) lexTable ['q'] 5 =
      Except.ok (HybridResult.lexicalOnly (fallbackKeywordSearch lexTable ['q'] kws3 5)) := by
  refine ⟨rfl, ?_, rfl⟩
  have hdb : (dbTextSearch lexTable (effectiveTerms kws3 ['q']) (5 * 2)).length = 4 := by
    simp only [dbTextSearch]
    rw [List.length_take, (List.mergeSort_perm _ _).length_eq]
    have hfilter : lexTable.filter
        (fun c => (effectiveTerms kws3 ['q']).any (fun t => containsCI c.content t)) =
          lexTable := by decide
    rw [hfilter]
    rfl
  simp only [fallbackKeywordSearch]
  rw [List.length_take, (List.mergeSort_perm _ _).length_eq, List.length_map, hdb]
  rfl

end HiRag
